import Mathlib

/-!
Verification of the bip39-sss repository: a shallow embedding of
`src/utils.py` (Shamir secret sharing over the BIP39 entropy space) and of
the subset-verification logic of `src/make_shares.py`, with theorems
settling the frozen claims about the specification.

Modelling conventions:
* Python arbitrary-precision integers are `Int` (or `Nat` where the source
  value is provably non-negative); Python `//` and `%` on a positive
  divisor agree with `Int.ediv` / `Int.emod`, which are Lean's `/` and `%`.
* Python exceptions are an explicit error type `Err`; a function that can
  raise returns `Except Err _`.
* The external `mnemonic` library (an external collaborator in the spec) is
  modelled as the lossless entropy/phrase codec the spec describes: a valid
  BIP39 phrase is represented by its word count together with the entropy
  integer it decodes to.
* The cryptographically secure random source is modelled
  nondeterministically: `make_random_shares` takes the stream of values the
  source returned, and `randint_support` says which values the stdlib
  `randint` call can produce.
-/

/-- Errors raised by the embedded code.  Every constructor corresponds to a
`raise` site (`ValueError` unless noted), to the `AssertionError` of the
distinct-points assert, or to the `OverflowError` of `int.to_bytes`. -/
inductive Err where
  | strengthNotAllowed
  | overflow
  | configMinShares
  | configSeedLength
  | configShareStrengthValue
  | configShareStrengthLow
  | needTwoShares
  | inconsistentShareLengths
  | assertDistinctPoints
  | recoverFailed
deriving DecidableEq

/-- Modelled from the spec: a valid BIP39 seed phrase is a lossless encoding
of an entropy byte string plus a checksum, so it is faithfully represented
by its word count and the entropy integer it decodes to (big-endian). -/
structure Phrase where
  nWords : Nat
  value : Nat
deriving DecidableEq

instance [DecidableEq ε] [DecidableEq α] : DecidableEq (Except ε α) := fun a b =>
  match a, b with
  | Except.error e, Except.error f =>
    if h : e = f then isTrue (congrArg Except.error h)
    else isFalse (fun c => h (Except.error.inj c))
  | Except.ok x, Except.ok y =>
    if h : x = y then isTrue (congrArg Except.ok h)
    else isFalse (fun c => h (Except.ok.inj c))
  | Except.error _, Except.ok _ => isFalse (fun c => Except.noConfusion c)
  | Except.ok _, Except.error _ => isFalse (fun c => Except.noConfusion c)

/-- `STRENGTH_ALLOWED` from `utils.py`. -/
def STRENGTH_ALLOWED : List Nat := [128, 160, 192, 224, 256]

/-- `LENGTH_ALLOWED` from `utils.py`. -/
def LENGTH_ALLOWED : List Nat := [12, 15, 18, 21, 24]

/-- The `PRIMES` dict from `utils.py` as a function; keys not present in the
dict are mapped to `0` (every access in the source is guarded by a
strength-membership check, so the `KeyError` case is unreachable). -/
def PRIMES : Nat → Nat
  | 128 => 2 ^ 128 - 159
  | 160 => 2 ^ 160 - 47
  | 192 => 2 ^ 192 - 237
  | 224 => 2 ^ 224 - 63
  | 256 => 2 ^ 256 - 189
  | _ => 0

/-- Modelled from the spec / Python stdlib: `random_int hi` is
`SystemRandom().randint(0, hi)`, which returns an integer `v` with
`0 ≤ v ≤ hi` (both endpoints included).  `randint_support hi v` holds iff
`v` is a value the call can return. -/
def randint_support (hi v : Nat) : Prop := v ≤ hi

instance (hi v : Nat) : Decidable (randint_support hi v) :=
  decidable_of_iff (v ≤ hi) Iff.rfl

/-- Modelled from the spec: `Mnemonic.to_mnemonic` encodes an entropy byte
string of `nbytes` bytes losslessly as a phrase of `nbytes * 3 / 4` words. -/
def to_mnemonic (nbytes : Nat) (value : Nat) : Phrase :=
  ⟨nbytes * 3 / 4, value⟩

/-- Modelled from the spec: `Mnemonic.to_entropy` recovers the entropy
integer encoded by a valid phrase. -/
def to_entropy (seed : Phrase) : Nat := seed.value

/-- `int_to_seed` from `utils.py`.  The strength check raises `ValueError`;
`int.to_bytes(number, length=strength//8)` raises `OverflowError` when the
number is negative or does not fit in `strength//8` bytes.  (The Python
default for `strength` is `256`; callers here always pass it explicitly.) -/
def int_to_seed (number : Int) (strength : Nat) : Except Err Phrase :=
  if strength ∈ STRENGTH_ALLOWED then
    if 0 ≤ number ∧ number < (256 : Int) ^ (strength / 8) then
      Except.ok (to_mnemonic (strength / 8) number.toNat)
    else Except.error Err.overflow
  else Except.error Err.strengthNotAllowed

/-- `seed_to_int` from `utils.py`: validates `strength`, then decodes the
phrase; the `strength` argument is not used by the decoding itself. -/
def seed_to_int (seed : Phrase) (strength : Nat) : Except Err Int :=
  if strength ∈ STRENGTH_ALLOWED then Except.ok (to_entropy seed : Int)
  else Except.error Err.strengthNotAllowed

/-- The loop body of `_extended_gcd` from `utils.py`.  The Python `while`
loop is modelled with a structural fuel argument; `b` strictly decreases on
every iteration, so the fuel `b + 1` used by `_extended_gcd` is never
exhausted.  For `b > 0`, Python `//` and `%` agree with `Int` division `/`
and `%`. -/
def egcdGo (fuel : Nat) (a : Int) (b : Nat) (x last_x y last_y : Int) :
    Int × Int :=
  match fuel with
  | 0 => (last_x, last_y)
  | fuel + 1 =>
    if b = 0 then (last_x, last_y)
    else
      let quot : Int := a / (b : Int)
      egcdGo fuel (b : Int) (a % (b : Int)).toNat
        (last_x - quot * x) x (last_y - quot * y) y

/-- `_extended_gcd` from `utils.py`; called only as `_extended_gcd(den, p)`
with `p > 0`, so the second argument is a `Nat`. -/
def _extended_gcd (a : Int) (b : Nat) : Int × Int :=
  egcdGo (b + 1) a b 0 1 1 0

/-- `_divmod` from `utils.py`: `num * inv` where `inv` is the first
component of `_extended_gcd(den, p)`.  Note the source does not reduce the
result modulo `p`. -/
def _divmod (num den : Int) (p : Nat) : Int :=
  num * (_extended_gcd den p).1

/-- `_eval_at` from `utils.py`: Horner evaluation of the coefficient list at
`x`, reducing modulo `prime` at every step. -/
def _eval_at (poly : List Int) (x : Int) (prime : Nat) : Int :=
  poly.reverse.foldl (fun accum coeff => (accum * x + coeff) % (prime : Int)) 0

/-- The local helper `PI` of `_lagrange_interpolate`: product of a list. -/
def PI (vals : List Int) : Int :=
  vals.foldl (fun accum v => accum * v) 1

/-- The `nums` entry of `_lagrange_interpolate` at index `i`:
`others = list(x_s); cur = others.pop(i); PI(x - o for o in others)`. -/
def lagNum (x : Int) (x_s : List Int) (i : Nat) : Int :=
  PI ((x_s.eraseIdx i).map (fun o => x - o))

/-- The `dens` entry of `_lagrange_interpolate` at index `i`:
`PI(cur - o for o in others)` with `cur = x_s[i]`. -/
def lagDen (x_s : List Int) (i : Nat) : Int :=
  PI ((x_s.eraseIdx i).map (fun o => x_s.getD i 0 - o))

/-- `_lagrange_interpolate` from `utils.py`.  The
`assert k == len(set(x_s))` guard raises `AssertionError` when two x-values
coincide; there is no minimum-point-count check in this function. -/
def _lagrange_interpolate (x : Int) (x_s y_s : List Int) (p : Nat) :
    Except Err Int :=
  let k := x_s.length
  if x_s.dedup.length = k then
    let nums := (List.range k).map (lagNum x x_s)
    let dens := (List.range k).map (lagDen x_s)
    let den := PI dens
    let num := ((List.range k).map (fun i =>
      _divmod ((nums.getD i 0 * den * y_s.getD i 0) % (p : Int))
        (dens.getD i 0) p)).sum
    Except.ok ((_divmod num den p + (p : Int)) % (p : Int))
  else Except.error Err.assertDistinctPoints

/-- `make_random_shares` from `utils.py`.  `rnd i` is the value returned by
the `i`-th call `random_int(prime - 1)`; the Python default
`share_strength=256` is passed explicitly by callers of the model.
`seed_to_int(seed)` in the source uses the default `strength=256`. -/
def make_random_shares (seed : Phrase) (minimum n_shares : Nat)
    (share_strength : Nat) (rnd : Nat → Nat) :
    Except Err (List (Int × Phrase)) :=
  if minimum > n_shares then Except.error Err.configMinShares
  else
  let seed_length := seed.nWords
  if seed_length ∉ LENGTH_ALLOWED then Except.error Err.configSeedLength
  else
  let seed_strength := seed_length / 3 * 32
  if share_strength ∉ STRENGTH_ALLOWED then
    Except.error Err.configShareStrengthValue
  else
  if share_strength < seed_strength then
    Except.error Err.configShareStrengthLow
  else
  let prime := PRIMES share_strength
  match seed_to_int seed 256 with
  | Except.error e => Except.error e
  | Except.ok secret =>
    let poly : List Int :=
      secret :: (List.range (minimum - 1)).map (fun i => (rnd i : Int))
    let points := (List.range' 1 n_shares).map
      (fun i : Nat => ((i : Int), _eval_at poly (i : Int) prime))
    points.mapM (fun ip =>
      (int_to_seed ip.2 share_strength).map (fun ph => (ip.1, ph)))

/-- `recover_seed` from `utils.py`.  `prime?` is the optional `prime`
argument; Python's `if not prime` treats both `None` and `0` as absent.
The final `try/except OverflowError` turns an encoding overflow into the
`ValueError` modelled by `Err.recoverFailed`. -/
def recover_seed (shares : List (Int × Phrase)) (seed_strength : Nat)
    (prime? : Option Nat) : Except Err Phrase :=
  if shares.length < 2 then Except.error Err.needTwoShares
  else
  let len_shares := shares.map (fun s => s.2.nWords)
  if ¬ (len_shares.dedup.length = 1) then
    Except.error Err.inconsistentShareLengths
  else
  if seed_strength ∉ STRENGTH_ALLOWED then Except.error Err.strengthNotAllowed
  else
  let default_prime :=
    PRIMES ((shares.headD (0, ⟨0, 0⟩)).2.nWords / 3 * 32)
  let prime : Nat :=
    match prime? with
    | none => default_prime
    | some q => if q = 0 then default_prime else q
  match shares.mapM (fun s =>
      (seed_to_int s.2 seed_strength).map (fun v => (s.1, v))) with
  | Except.error e => Except.error e
  | Except.ok pts =>
    let x_s := pts.map Prod.fst
    let y_s := pts.map Prod.snd
    match _lagrange_interpolate 0 x_s y_s prime with
    | Except.error e => Except.error e
    | Except.ok entropy =>
      match int_to_seed entropy seed_strength with
      | Except.error Err.overflow => Except.error Err.recoverFailed
      | Except.error e => Except.error e
      | Except.ok s => Except.ok s

/-- `len_permutations` from `make_shares.py`, applied to the length `n` of
the share pool: the number of `r`-permutations, computed as the product of
`range(n - r + 1, n + 1)` (and `0` when `r > n`). -/
def len_permutations (n r : Nat) : Nat :=
  if r > n then 0
  else (List.range' (n - r + 1) r).foldl (fun a b => a * b) 1

/-- The branch condition of the verification block of `make_shares.py`:
random sampling is used exactly when
`len_permutations(shares, minimum) > 100`. -/
def verification_uses_random_sampling (n_shares minimum : Nat) : Bool :=
  decide (100 < len_permutations n_shares minimum)

/-- Modelled from the Python stdlib: `random.sample(seq, length)` can return
exactly the length-`length` lists of pairwise-distinct elements of `seq`
(for a `seq` without duplicates), in any order. -/
def sample_support (seq : List α) (length : Nat) (t : List α) : Prop :=
  t.length = length ∧ t.Nodup ∧ ∀ x ∈ t, x ∈ seq

instance [DecidableEq α] (seq : List α) (n : Nat) (t : List α) :
    Decidable (sample_support seq n t) :=
  decidable_of_iff (t.length = n ∧ t.Nodup ∧ ∀ x ∈ t, x ∈ seq) Iff.rfl

/-- `permutations_generator` from `make_shares.py` yields tuples drawn by
`random.sample`, skipping any tuple it has yielded before.  `outs` is a
possible sequence of yielded tuples: pairwise distinct as tuples, each a
possible `sample` result.  Tuples that are distinct as tuples may still be
the same subset in a different order. -/
def permutations_generator_support (seq : List α) (length : Nat)
    (outs : List (List α)) : Prop :=
  outs.Nodup ∧ ∀ t ∈ outs, sample_support seq length t

instance [DecidableEq α] (seq : List α) (n : Nat) (outs : List (List α)) :
    Decidable (permutations_generator_support seq n outs) :=
  @instDecidableAnd _ _ (List.nodupDecidable outs)
    (List.decidableBAll (sample_support seq n) outs)

/-! ### Proof-side definitions -/

/-- The polynomial-evaluation function with no modular reduction; `_eval_at`
agrees with it modulo `p` (`cast_eval_at`). -/
def evalZ (c : List Int) (x : Int) : Int :=
  c.foldr (fun a acc => a + x * acc) 0

/-- `lagRest x_s i` is the product of all `dens` entries except the `i`-th:
the cofactor of `dens[i]` inside `den`. -/
def lagRest (x_s : List Int) (i : Nat) : Int :=
  PI (((List.range x_s.length).map (lagDen x_s)).eraseIdx i)

/-- The polynomial `make_random_shares` builds: the secret followed by the
`minimum - 1` drawn coefficients. -/
def sharePoly (seed : Phrase) (minimum : Nat) (rnd : Nat → Nat) : List Int :=
  (seed.value : Int)
    :: (List.range (minimum - 1)).map (fun i => ((rnd i : Nat) : Int))

/-- The share list `make_random_shares` returns on a valid configuration. -/
def sharesList (seed : Phrase) (minimum n_shares share_strength : Nat)
    (rnd : Nat → Nat) : List (Int × Phrase) :=
  (List.range' 1 n_shares).map (fun i : Nat =>
    ((i : Int), Phrase.mk (share_strength / 8 * 3 / 4)
      (_eval_at (sharePoly seed minimum rnd) (i : Int)
        (PRIMES share_strength)).toNat))

/-! ### Generic list lemmas -/

theorem PI_eq_prod (l : List Int) : PI l = l.prod := by
  rw [PI, List.prod_eq_foldl]

theorem dedup_length_eq_iff [DecidableEq α] {l : List α} :
    l.dedup.length = l.length ↔ l.Nodup := by
  constructor
  · intro h
    rw [← List.dedup_eq_self]
    exact (List.dedup_sublist l).eq_of_length h
  · intro h
    rw [List.dedup_eq_self.mpr h]

theorem getD_eq_getElem (l : List α) (d : α) {i : Nat} (h : i < l.length) :
    l.getD i d = l[i] := by
  rw [List.getD_eq_getElem?_getD, List.getElem?_eq_getElem h, Option.getD_some]

theorem getD_map_range (f : Nat → α) (d : α) {i k : Nat} (h : i < k) :
    ((List.range k).map f).getD i d = f i := by
  have hi : i < ((List.range k).map f).length := by simpa using h
  rw [getD_eq_getElem _ d hi, List.getElem_map, List.getElem_range]

theorem getD_mem (l : List α) (d : α) {i : Nat} (h : i < l.length) :
    l.getD i d ∈ l := by
  rw [getD_eq_getElem l d h]
  exact List.getElem_mem h

theorem nodup_getD_inj {l : List α} (hl : l.Nodup) (d : α) {i j : Nat}
    (hi : i < l.length) (hj : j < l.length)
    (h : l.getD i d = l.getD j d) : i = j := by
  rw [getD_eq_getElem l d hi, getD_eq_getElem l d hj] at h
  exact List.Nodup.getElem_inj_iff hl |>.mp h

theorem sum_map_range {M : Type} [AddCommMonoid M] (f : Nat → M) (k : Nat) :
    ((List.range k).map f).sum = ∑ i ∈ Finset.range k, f i := by
  induction k with
  | zero => simp
  | succ n ih =>
    rw [List.range_succ, List.map_append, List.sum_append,
      Finset.sum_range_succ, ih]
    simp

theorem prod_map_range {M : Type} [CommMonoid M] (f : Nat → M) (k : Nat) :
    ((List.range k).map f).prod = ∏ i ∈ Finset.range k, f i := by
  induction k with
  | zero => simp
  | succ n ih =>
    rw [List.range_succ, List.map_append, List.prod_append,
      Finset.prod_range_succ, ih]
    simp

theorem prod_map_getD {M : Type} [CommMonoid M] (l : List α) (f : α → M)
    (d : α) :
    (l.map f).prod = ∏ j ∈ Finset.range l.length, f (l.getD j d) := by
  induction l with
  | nil => simp
  | cons a t ih =>
    rw [List.map_cons, List.prod_cons, ih, List.length_cons,
      Finset.prod_range_succ']
    simp [mul_comm]

theorem range_succ_erase_zero (n : Nat) :
    (Finset.range (n + 1)).erase 0 = (Finset.range n).image Nat.succ := by
  ext j
  cases j with
  | zero => simp
  | succ m => simp [Nat.succ_lt_succ_iff]

theorem range_succ_erase_succ {n i : Nat} (h : i < n) :
    (Finset.range (n + 1)).erase (i + 1)
      = insert 0 (((Finset.range n).erase i).image Nat.succ) := by
  ext j
  cases j with
  | zero => simp
  | succ m =>
    simp only [Finset.mem_erase, Finset.mem_range, Finset.mem_insert,
      Finset.mem_image]
    constructor
    · rintro ⟨hne, hlt⟩
      exact Or.inr ⟨m, ⟨fun hmi => hne (by rw [hmi]),
        Nat.lt_of_succ_lt_succ hlt⟩, rfl⟩
    · rintro (hc | ⟨x, ⟨hxi, hxn⟩, hx⟩)
      · exact absurd hc (Nat.succ_ne_zero m)
      · obtain rfl : x = m := Nat.succ_injective hx
        exact ⟨fun hc => hxi (Nat.succ_injective hc), Nat.succ_lt_succ hxn⟩

theorem prod_map_eraseIdx {M : Type} [CommMonoid M] (l : List α) (f : α → M)
    (d : α) :
    ∀ i, i < l.length → ((l.eraseIdx i).map f).prod
      = ∏ j ∈ (Finset.range l.length).erase i, f (l.getD j d) := by
  induction l with
  | nil => intro i h; simp at h
  | cons a t ih =>
    intro i hi
    match i with
    | 0 =>
      rw [List.eraseIdx_cons_zero, List.length_cons, range_succ_erase_zero,
        Finset.prod_image (fun x _ y _ h => Nat.succ_injective h)]
      rw [prod_map_getD t f d]
      simp
    | i + 1 =>
      have hit : i < t.length := by
        simpa using Nat.lt_of_succ_lt_succ hi
      rw [List.eraseIdx_cons_succ, List.map_cons, List.prod_cons, ih i hit,
        List.length_cons, range_succ_erase_succ hit,
        Finset.prod_insert (by simp),
        Finset.prod_image (fun x _ y _ h => Nat.succ_injective h)]
      simp

theorem prod_eraseIdx_mul {M : Type} [CommMonoid M] (l : List M) (d : M) :
    ∀ i, i < l.length → l.prod = l.getD i d * (l.eraseIdx i).prod := by
  induction l with
  | nil => intro i h; simp at h
  | cons a t ih =>
    intro i hi
    match i with
    | 0 => simp
    | i + 1 =>
      have hit : i < t.length := by simpa using Nat.lt_of_succ_lt_succ hi
      rw [List.eraseIdx_cons_succ, List.prod_cons, List.prod_cons,
        List.getD_cons_succ, ih i hit, mul_left_comm]

theorem nodup_not_mem_eraseIdx {l : List α} (hl : l.Nodup) (d : α) {i : Nat}
    (hi : i < l.length) : l.getD i d ∉ l.eraseIdx i := by
  intro hmem
  obtain ⟨j, hj, hjv⟩ := List.mem_iff_getElem.mp hmem
  rw [List.getElem_eraseIdx] at hjv
  by_cases hji : j < i
  · rw [dif_pos hji] at hjv
    have hjl : j < l.length :=
      lt_of_lt_of_le (lt_of_lt_of_le hj (List.length_eraseIdx_le l i))
        (le_refl _)
    rw [getD_eq_getElem l d hi] at hjv
    have := List.Nodup.getElem_inj_iff hl |>.mp hjv
    omega
  · rw [dif_neg hji] at hjv
    have hjl : j + 1 < l.length := by
      have := List.length_eraseIdx_of_lt hi
      omega
    rw [getD_eq_getElem l d hi] at hjv
    have := List.Nodup.getElem_inj_iff hl |>.mp hjv
    omega

/-! ### Extended gcd: Bezout identity -/

theorem egcdGo_stop (fuel : Nat) (a : Int) (x lx y ly : Int) :
    egcdGo fuel a 0 x lx y ly = (lx, ly) := by
  cases fuel <;> simp [egcdGo]

theorem int_gcd_rec (a : Int) (b : Nat) :
    Int.gcd (b : Int) (a % (b : Int)) = Int.gcd a b := by
  apply Nat.dvd_antisymm
  · rw [← Int.natCast_dvd_natCast]
    apply Int.dvd_gcd
    · have hsplit : (b : Int) * (a / (b : Int)) + a % (b : Int) = a :=
        Int.ediv_add_emod a (b : Int)
      have hd : (↑(Int.gcd (b : Int) (a % (b : Int))) : Int) ∣
          (b : Int) * (a / (b : Int)) + a % (b : Int) :=
        dvd_add (Int.gcd_dvd_left.mul_right _) Int.gcd_dvd_right
      rw [hsplit] at hd
      exact hd
    · exact Int.gcd_dvd_left
  · rw [← Int.natCast_dvd_natCast]
    apply Int.dvd_gcd
    · exact Int.gcd_dvd_right
    · rw [Int.emod_def]
      exact dvd_sub Int.gcd_dvd_left (Int.gcd_dvd_right.mul_right _)

theorem egcdGo_step {a : Int} {b : Nat} (fuel : Nat) (hb : ¬ b = 0)
    (x lx y ly : Int) :
    egcdGo (fuel + 1) a b x lx y ly
      = egcdGo fuel (b : Int) (a % (b : Int)).toNat
          (lx - (a / (b : Int)) * x) x (ly - (a / (b : Int)) * y) y := by
  rw [egcdGo, if_neg hb]

theorem egcdGo_bezout : ∀ (fuel : Nat) (a : Int) (b : Nat)
    (x lx y ly A B : Int), b < fuel → 0 < b →
    lx * A + ly * B = a → x * A + y * B = (b : Int) →
    (egcdGo fuel a b x lx y ly).1 * A + (egcdGo fuel a b x lx y ly).2 * B
      = (Int.gcd a b : Int) := by
  intro fuel
  induction fuel with
  | zero => intro a b x lx y ly A B hfuel hb _ _; omega
  | succ fuel ih =>
    intro a b x lx y ly A B hfuel hb hlast hcur
    have hbne : ¬ (b = 0) := Nat.pos_iff_ne_zero.mp hb
    rw [egcdGo_step fuel hbne]
    have hbz : (b : Int) ≠ 0 := by exact_mod_cast hbne
    have hmod_nonneg : 0 ≤ a % (b : Int) := Int.emod_nonneg a hbz
    have hmod_lt : a % (b : Int) < (b : Int) :=
      Int.emod_lt_of_pos a (by exact_mod_cast hb)
    have hb'cast : (((a % (b : Int)).toNat : Nat) : Int) = a % (b : Int) :=
      Int.toNat_of_nonneg hmod_nonneg
    have hb'lt : (a % (b : Int)).toNat < b := by
      have h2 : (((a % (b : Int)).toNat : Nat) : Int) < (b : Int) := by
        rw [hb'cast]; exact hmod_lt
      exact_mod_cast h2
    have hnewcur : (lx - (a / (b : Int)) * x) * A
        + (ly - (a / (b : Int)) * y) * B
        = (((a % (b : Int)).toNat : Nat) : Int) := by
      rw [hb'cast, Int.emod_def]
      calc (lx - (a / (b : Int)) * x) * A + (ly - (a / (b : Int)) * y) * B
          = (lx * A + ly * B) - (a / (b : Int)) * (x * A + y * B) := by ring
        _ = a - (a / (b : Int)) * (b : Int) := by rw [hlast, hcur]
        _ = a - (b : Int) * (a / (b : Int)) := by ring
    by_cases hb'z : (a % (b : Int)).toNat = 0
    · rw [hb'z, egcdGo_stop]
      have hdvd : (b : Int) ∣ a := by
        apply Int.dvd_of_emod_eq_zero
        rw [← hb'cast, hb'z]
        rfl
      have hgcd : Int.gcd a b = b := by
        rw [Int.gcd_comm, Int.gcd_eq_left hdvd, Int.natAbs_ofNat]
      rw [hgcd]
      exact hcur
    · have hres := ih (b : Int) (a % (b : Int)).toNat
        (lx - (a / (b : Int)) * x) x (ly - (a / (b : Int)) * y) y A B
        (by omega) (Nat.pos_iff_ne_zero.mpr hb'z) hcur hnewcur
      rw [hres]
      have h2 : Int.gcd (b : Int) (((a % (b : Int)).toNat : Nat) : Int)
          = Int.gcd a b := by
        rw [hb'cast]
        exact int_gcd_rec a b
      exact congrArg (fun n : Nat => (n : Int)) h2

theorem extended_gcd_bezout (a : Int) (b : Nat) (hb : 0 < b) :
    (_extended_gcd a b).1 * a + (_extended_gcd a b).2 * b
      = (Int.gcd a b : Int) := by
  have := egcdGo_bezout (b + 1) a b 0 1 1 0 a (b : Int)
    (Nat.lt_succ_self b) hb (by ring) (by ring)
  simpa [_extended_gcd] using this

/-! ### `_eval_at` lemmas -/

theorem _eval_at_eq_foldr (poly : List Int) (x : Int) (p : Nat) :
    _eval_at poly x p
      = poly.foldr (fun coeff accum => (accum * x + coeff) % (p : Int)) 0 := by
  rw [_eval_at, List.foldl_reverse]

theorem _eval_at_nonneg (poly : List Int) (x : Int) {p : Nat} (hp : 0 < p) :
    0 ≤ _eval_at poly x p := by
  rw [_eval_at_eq_foldr]
  cases poly with
  | nil => simp
  | cons a t =>
    exact Int.emod_nonneg _ (by exact_mod_cast Nat.pos_iff_ne_zero.mp hp)

theorem _eval_at_lt (poly : List Int) (x : Int) {p : Nat} (hp : 0 < p) :
    _eval_at poly x p < (p : Int) := by
  rw [_eval_at_eq_foldr]
  cases poly with
  | nil =>
    rw [List.foldr_nil]
    exact_mod_cast hp
  | cons a t => exact Int.emod_lt_of_pos _ (by exact_mod_cast hp)

theorem _eval_at_cons_zero (a : Int) (t : List Int) (p : Nat) :
    _eval_at (a :: t) 0 p = a % (p : Int) := by
  rw [_eval_at_eq_foldr, List.foldr_cons]
  simp

/-! ### Casting into `ZMod p` -/

theorem cast_emod_zmod (a : Int) (p : Nat) :
    ((a % (p : Int) : Int) : ZMod p) = (a : ZMod p) := by
  rw [ZMod.intCast_eq_intCast_iff']
  simp [Int.emod_emod_of_dvd]

theorem int_eq_of_cast_zmod_eq {p : Nat} {a b : Int}
    (ha0 : 0 <= a) (ha : a < (p : Int)) (hb0 : 0 <= b) (hb : b < (p : Int))
    (h : (a : ZMod p) = (b : ZMod p)) : a = b := by
  rw [ZMod.intCast_eq_intCast_iff'] at h
  rwa [Int.emod_eq_of_lt ha0 ha, Int.emod_eq_of_lt hb0 hb] at h

theorem cast_eval_at (c : List Int) (x : Int) (p : Nat) :
    ((_eval_at c x p : Int) : ZMod p) = ((evalZ c x : Int) : ZMod p) := by
  rw [_eval_at_eq_foldr]
  induction c with
  | nil => simp [evalZ]
  | cons a t ih =>
    have hz : evalZ (a :: t) x = a + x * evalZ t x := rfl
    rw [List.foldr_cons, cast_emod_zmod, hz]
    push_cast
    rw [ih]
    ring

/-! ### `_divmod` and the modular inverse -/

theorem egcd_inv_cast {p : Nat} (hp : 0 < p) {den : Int}
    (hg : Int.gcd den p = 1) :
    ((_extended_gcd den p).1 : ZMod p) * (den : ZMod p) = 1 := by
  have hb := extended_gcd_bezout den p hp
  rw [hg] at hb
  have hc := congrArg (fun z : Int => (z : ZMod p)) hb
  push_cast at hc
  rwa [ZMod.natCast_self, mul_zero, add_zero] at hc

theorem divmod_den_congr {p : Nat} (hp : 0 < p) (num den : Int)
    (hg : Int.gcd den p = 1) :
    (den * _divmod num den p) % (p : Int) = num % (p : Int) := by
  have hb := extended_gcd_bezout den p hp
  rw [hg] at hb
  push_cast at hb
  have hdvd : (p : Int) ∣ (den * _divmod num den p - num) := by
    refine ⟨-(num * (_extended_gcd den p).2), ?_⟩
    rw [_divmod]
    linear_combination num * hb
  exact Int.emod_eq_emod_iff_emod_sub_eq_zero.mpr (Int.emod_eq_zero_of_dvd hdvd)

theorem cast_divmod {p : Nat} (hp : 0 < p) (num den : Int)
    (hg : Int.gcd den p = 1) :
    ((_divmod num den p : Int) : ZMod p)
      = (num : ZMod p) * ((_extended_gcd den p).1 : ZMod p) := by
  rw [_divmod]
  push_cast
  ring

/-! ### Lagrange interpolation over the rationals -/

/-- For every integer coefficient list there is a rational polynomial of
degree below the list length whose values at integer points are the values
of `evalZ`. -/
theorem exists_fpoly (c : List Int) :
    ∃ f : Polynomial ℚ, f.degree < ((c.length : Nat) : WithBot Nat)
      ∧ ∀ m : Int, f.eval (m : ℚ) = ((evalZ c m : Int) : ℚ) := by
  induction c with
  | nil =>
    refine ⟨0, ?_, ?_⟩
    · rw [Polynomial.degree_zero]
      exact WithBot.bot_lt_coe 0
    · intro m
      simp [evalZ]
  | cons a t ih =>
    obtain ⟨q, hq, hqe⟩ := ih
    refine ⟨Polynomial.C (a : ℚ) + Polynomial.X * q, ?_, ?_⟩
    · rw [List.length_cons]
      apply lt_of_le_of_lt (Polynomial.degree_add_le _ _)
      rw [max_lt_iff]
      constructor
      · apply lt_of_le_of_lt Polynomial.degree_C_le
        exact_mod_cast Nat.succ_pos t.length
      · apply lt_of_le_of_lt (Polynomial.degree_mul_le _ _)
        rw [Polynomial.degree_X]
        have hstep := WithBot.add_lt_add_left
          (a := (1 : WithBot Nat)) (by simp) hq
        apply lt_of_lt_of_le hstep
        apply le_of_eq
        rw [Nat.cast_add_one]
        exact add_comm 1 ((t.length : Nat) : WithBot Nat)
    · intro m
      have h2 : evalZ (a :: t) m = a + m * evalZ t m := rfl
      rw [h2]
      push_cast
      simp [hqe m]

theorem lagrange_rat (k : Nat) (v : Nat → ℚ)
    (hinj : Set.InjOn v ↑(Finset.range k))
    (f : Polynomial ℚ) (hdeg : f.degree < ((k : Nat) : WithBot Nat)) :
    f.eval 0 = ∑ i ∈ Finset.range k, f.eval (v i)
      * ∏ j ∈ (Finset.range k).erase i, ((v i - v j)⁻¹ * (0 - v j)) := by
  have hdeg' : f.degree < (Finset.range k).card := by
    rwa [Finset.card_range]
  have h := Lagrange.eq_interpolate hinj hdeg'
  conv_lhs => rw [h]
  rw [Lagrange.interpolate_apply, Polynomial.eval_finset_sum]
  apply Finset.sum_congr rfl
  intro i _
  rw [Polynomial.eval_mul, Polynomial.eval_C]
  congr 1
  unfold Lagrange.basis
  rw [Polynomial.eval_prod]
  apply Finset.prod_congr rfl
  intro j _
  unfold Lagrange.basisDivisor
  rw [Polynomial.eval_mul, Polynomial.eval_C, Polynomial.eval_sub,
    Polynomial.eval_X, Polynomial.eval_C]

/-! ### Casting the interpolation building blocks into the rationals -/

theorem cast_list_prod {R : Type} [CommRing R] (l : List Int) :
    ((l.prod : Int) : R) = (l.map (fun z : Int => (z : R))).prod := by
  simpa using map_list_prod (Int.castRingHom R) l

theorem cast_list_sum {R : Type} [CommRing R] (l : List Int) :
    ((l.sum : Int) : R) = (l.map (fun z : Int => (z : R))).sum := by
  simpa using map_list_sum (Int.castRingHom R) l

theorem cast_lagDen (x_s : List Int) {i : Nat} (hi : i < x_s.length) :
    ((lagDen x_s i : Int) : ℚ)
      = ∏ j ∈ (Finset.range x_s.length).erase i,
          (((x_s.getD i 0 : Int) : ℚ) - ((x_s.getD j 0 : Int) : ℚ)) := by
  rw [lagDen, PI_eq_prod, cast_list_prod, List.map_map,
    prod_map_eraseIdx x_s _ 0 i hi]
  apply Finset.prod_congr rfl
  intro j _
  simp

theorem cast_lagNum (x : Int) (x_s : List Int) {i : Nat} (hi : i < x_s.length) :
    ((lagNum x x_s i : Int) : ℚ)
      = ∏ j ∈ (Finset.range x_s.length).erase i,
          ((x : ℚ) - ((x_s.getD j 0 : Int) : ℚ)) := by
  rw [lagNum, PI_eq_prod, cast_list_prod, List.map_map,
    prod_map_eraseIdx x_s _ 0 i hi]
  apply Finset.prod_congr rfl
  intro j _
  simp

theorem cast_lagDenProd (x_s : List Int) :
    ((PI ((List.range x_s.length).map (lagDen x_s)) : Int) : ℚ)
      = ∏ i ∈ Finset.range x_s.length, ((lagDen x_s i : Int) : ℚ) := by
  rw [PI_eq_prod, cast_list_prod, List.map_map, prod_map_range]
  rfl

theorem cast_lagRest (x_s : List Int) {i : Nat} (hi : i < x_s.length) :
    ((lagRest x_s i : Int) : ℚ)
      = ∏ j ∈ (Finset.range x_s.length).erase i,
          ((lagDen x_s j : Int) : ℚ) := by
  have hlen : ((List.range x_s.length).map (lagDen x_s)).length
      = x_s.length := by simp
  rw [lagRest, PI_eq_prod, cast_list_prod,
    prod_map_eraseIdx _ _ 0 i (by simpa using hi), hlen]
  apply Finset.prod_congr rfl
  intro j hj
  have hjk : j < x_s.length := Finset.mem_range.mp (Finset.mem_of_mem_erase hj)
  rw [getD_map_range _ _ hjk]

/-! ### The polynomial identity behind the interpolator -/

/-- The exact integer identity behind `_lagrange_interpolate`: for distinct
nodes and a coefficient list no longer than the node list,
`den * P(0) = sum of P(x_i) * nums[i] * (den / dens[i])`. -/
theorem lagrange_int_identity (x_s c : List Int) (hnd : x_s.Nodup)
    (hclen : c.length ≤ x_s.length) :
    PI ((List.range x_s.length).map (lagDen x_s)) * evalZ c 0
      = ((List.range x_s.length).map (fun i =>
          evalZ c (x_s.getD i 0) * lagNum 0 x_s i * lagRest x_s i)).sum := by
  apply @Int.cast_injective ℚ _ _
  rw [Int.cast_mul, cast_lagDenProd, cast_list_sum, List.map_map,
    sum_map_range]
  have hinj : Set.InjOn (fun j => ((x_s.getD j 0 : Int) : ℚ))
      ↑(Finset.range x_s.length) := by
    intro i hi j hj h
    rw [Finset.coe_range, Set.mem_Iio] at hi hj
    have h2 : ((x_s.getD i 0 : Int) : ℚ) = ((x_s.getD j 0 : Int) : ℚ) := h
    exact nodup_getD_inj hnd 0 hi hj (by exact_mod_cast h2)
  obtain ⟨f, hdeg, hev⟩ := exists_fpoly c
  have hdeg' : f.degree < ((x_s.length : Nat) : WithBot Nat) :=
    lt_of_lt_of_le hdeg (by exact_mod_cast hclen)
  have hL := lagrange_rat x_s.length (fun j => ((x_s.getD j 0 : Int) : ℚ))
    hinj f hdeg'
  have hev0 : ((evalZ c 0 : Int) : ℚ) = f.eval 0 := by
    have := hev 0
    rw [Int.cast_zero] at this
    exact this.symm
  rw [hev0, hL, Finset.mul_sum]
  apply Finset.sum_congr rfl
  intro i hi
  beta_reduce
  have hik : i < x_s.length := Finset.mem_range.mp hi
  have hD := cast_lagDen x_s hik
  have hN := cast_lagNum 0 x_s hik
  have hR := cast_lagRest x_s hik
  have hDne : ((lagDen x_s i : Int) : ℚ) ≠ 0 := by
    rw [hD]
    apply Finset.prod_ne_zero_iff.mpr
    intro j hj
    apply sub_ne_zero.mpr
    intro hc
    have hji : j ≠ i := (Finset.mem_erase.mp hj).1
    have hjk : j < x_s.length := Finset.mem_range.mp (Finset.mem_of_mem_erase hj)
    exact hji (hinj (by rw [Finset.coe_range, Set.mem_Iio]; exact hik)
      (by rw [Finset.coe_range, Set.mem_Iio]; exact hjk) hc).symm
  have hsplit : (∏ l ∈ Finset.range x_s.length, ((lagDen x_s l : Int) : ℚ))
      = ((lagDen x_s i : Int) : ℚ) * ((lagRest x_s i : Int) : ℚ) := by
    rw [hR]
    exact (Finset.mul_prod_erase (Finset.range x_s.length) _ hi).symm
  rw [Int.cast_zero] at hN
  rw [Finset.prod_mul_distrib, Finset.prod_inv_distrib, hsplit]
  have hevi := hev (x_s.getD i 0)
  rw [← hD, ← hN, hevi]
  field_simp
  ring

/-! ### The interpolator on distinct points -/

theorem gcd_list_prod_eq_one {p : Nat} {l : List Int}
    (h : ∀ a ∈ l, Int.gcd a p = 1) : Int.gcd l.prod p = 1 := by
  induction l with
  | nil => simp
  | cons a t ih =>
    rw [List.prod_cons, Int.gcd_eq_one_iff_coprime]
    exact IsCoprime.mul_left
      (Int.gcd_eq_one_iff_coprime.mp (h a (List.mem_cons_self a t)))
      (Int.gcd_eq_one_iff_coprime.mp
        (ih (fun b hb => h b (List.mem_cons_of_mem a hb))))

/-- `den` split off its `i`-th factor, as an integer identity. -/
theorem den_split (x_s : List Int) {i : Nat} (hi : i < x_s.length) :
    PI ((List.range x_s.length).map (lagDen x_s))
      = lagDen x_s i * lagRest x_s i := by
  rw [PI_eq_prod, lagRest, PI_eq_prod]
  have hlen : i < ((List.range x_s.length).map (lagDen x_s)).length := by
    simpa using hi
  have h := prod_eraseIdx_mul ((List.range x_s.length).map (lagDen x_s)) 0
    i hlen
  rwa [getD_map_range _ _ hi] at h

/-- When the x-values are distinct, the assert passes and
`_lagrange_interpolate` returns the normalized combination. -/
theorem lagrange_interpolate_of_nodup (x : Int) (x_s y_s : List Int) (p : Nat)
    (hnd : x_s.Nodup) :
    _lagrange_interpolate x x_s y_s p
      = Except.ok ((_divmod
          (((List.range x_s.length).map (fun i =>
            _divmod ((lagNum x x_s i
                * PI ((List.range x_s.length).map (lagDen x_s))
                * y_s.getD i 0) % (p : Int))
              (lagDen x_s i) p)).sum)
          (PI ((List.range x_s.length).map (lagDen x_s))) p
          + (p : Int)) % (p : Int)) := by
  rw [_lagrange_interpolate]
  rw [if_pos (dedup_length_eq_iff.mpr hnd)]
  have hmap : List.map (fun i =>
        _divmod ((((List.range x_s.length).map (lagNum x x_s)).getD i 0
            * PI ((List.range x_s.length).map (lagDen x_s))
            * y_s.getD i 0) % (p : Int))
          (((List.range x_s.length).map (lagDen x_s)).getD i 0) p)
        (List.range x_s.length)
      = List.map (fun i =>
        _divmod ((lagNum x x_s i
            * PI ((List.range x_s.length).map (lagDen x_s))
            * y_s.getD i 0) % (p : Int))
          (lagDen x_s i) p)
        (List.range x_s.length) := by
    apply List.map_congr_left
    intro i hi
    have hik : i < x_s.length := List.mem_range.mp hi
    rw [getD_map_range _ _ hik, getD_map_range _ _ hik]
  show Except.ok ((_divmod
      (List.map (fun i =>
        _divmod ((((List.range x_s.length).map (lagNum x x_s)).getD i 0
            * PI ((List.range x_s.length).map (lagDen x_s))
            * y_s.getD i 0) % (p : Int))
          (((List.range x_s.length).map (lagDen x_s)).getD i 0) p)
        (List.range x_s.length)).sum
      (PI ((List.range x_s.length).map (lagDen x_s))) p
      + (p : Int)) % (p : Int)) = _
  rw [hmap]

/-- Correctness of `_lagrange_interpolate` at `x = 0`: on pairwise-distinct
x-values whose Lagrange denominators are coprime to `p`, with y-values that
agree modulo `p` with the evaluations of a coefficient list `c` of length at
most the number of points, the interpolator returns exactly `_eval_at c 0 p`
(the constant term reduced modulo `p`). -/
theorem lagrange_interpolate_ok (p : Nat) (hp : 0 < p) (x_s y_s c : List Int)
    (hnd : x_s.Nodup) (hclen : c.length ≤ x_s.length)
    (hcop : ∀ i, i < x_s.length → Int.gcd (lagDen x_s i) p = 1)
    (hy : ∀ i, i < x_s.length →
      ((y_s.getD i 0 : Int) : ZMod p)
        = ((_eval_at c (x_s.getD i 0) p : Int) : ZMod p)) :
    _lagrange_interpolate 0 x_s y_s p = Except.ok (_eval_at c 0 p) := by
  classical
  rw [lagrange_interpolate_of_nodup 0 x_s y_s p hnd]
  congr 1
  have hpz : ((p : Nat) : Int) ≠ 0 := by
    exact_mod_cast Nat.pos_iff_ne_zero.mp hp
  apply int_eq_of_cast_zmod_eq (Int.emod_nonneg _ hpz)
    (Int.emod_lt_of_pos _ (by exact_mod_cast hp))
    (_eval_at_nonneg c 0 hp) (_eval_at_lt c 0 hp)
  rw [cast_emod_zmod, Int.cast_add, Int.cast_natCast, ZMod.natCast_self,
    add_zero]
  have hgden : Int.gcd (PI ((List.range x_s.length).map (lagDen x_s))) p
      = 1 := by
    rw [PI_eq_prod]
    apply gcd_list_prod_eq_one
    intro a ha
    obtain ⟨i, hi, rfl⟩ := List.mem_map.mp ha
    exact hcop i (List.mem_range.mp hi)
  rw [cast_divmod hp _ _ hgden, cast_eval_at c 0 p]
  rw [cast_list_sum, List.map_map, sum_map_range]
  have hterm : ∀ i ∈ Finset.range x_s.length,
      ((fun z : Int => (z : ZMod p)) ∘ (fun i =>
        _divmod ((lagNum 0 x_s i
            * PI ((List.range x_s.length).map (lagDen x_s))
            * y_s.getD i 0) % (p : Int)) (lagDen x_s i) p)) i
      = ((lagNum 0 x_s i : Int) : ZMod p)
        * ((PI ((List.range x_s.length).map (lagDen x_s)) : Int) : ZMod p)
        * ((evalZ c (x_s.getD i 0) : Int) : ZMod p)
        * (((_extended_gcd (lagDen x_s i) p).1 : Int) : ZMod p) := by
    intro i hi
    have hik := Finset.mem_range.mp hi
    show ((_divmod _ _ p : Int) : ZMod p) = _
    rw [cast_divmod hp _ _ (hcop i hik), cast_emod_zmod, Int.cast_mul,
      Int.cast_mul, hy i hik, cast_eval_at]
  rw [Finset.sum_congr rfl hterm]
  have hid := congrArg (fun z : Int => (z : ZMod p))
    (lagrange_int_identity x_s c hnd hclen)
  beta_reduce at hid
  rw [Int.cast_mul, cast_list_sum, List.map_map, sum_map_range] at hid
  have hSterm : ∀ i ∈ Finset.range x_s.length,
      ((fun z : Int => (z : ZMod p)) ∘ (fun i =>
        evalZ c (x_s.getD i 0) * lagNum 0 x_s i * lagRest x_s i)) i
      = ((evalZ c (x_s.getD i 0) : Int) : ZMod p)
        * ((lagNum 0 x_s i : Int) : ZMod p)
        * ((lagRest x_s i : Int) : ZMod p) := by
    intro i _
    show ((_ : Int) : ZMod p) = _
    rw [Int.cast_mul, Int.cast_mul]
  rw [Finset.sum_congr rfl hSterm] at hid
  have hinvDEN := egcd_inv_cast hp hgden
  rw [Finset.sum_mul]
  have hstep : ∀ i ∈ Finset.range x_s.length,
      ((lagNum 0 x_s i : Int) : ZMod p)
        * ((PI ((List.range x_s.length).map (lagDen x_s)) : Int) : ZMod p)
        * ((evalZ c (x_s.getD i 0) : Int) : ZMod p)
        * (((_extended_gcd (lagDen x_s i) p).1 : Int) : ZMod p)
        * (((_extended_gcd
            (PI ((List.range x_s.length).map (lagDen x_s))) p).1 : Int)
              : ZMod p)
      = (((_extended_gcd
            (PI ((List.range x_s.length).map (lagDen x_s))) p).1 : Int)
              : ZMod p)
        * (((evalZ c (x_s.getD i 0) : Int) : ZMod p)
            * ((lagNum 0 x_s i : Int) : ZMod p)
            * ((lagRest x_s i : Int) : ZMod p)) := by
    intro i hi
    have hik := Finset.mem_range.mp hi
    have hsplit := congrArg (fun z : Int => (z : ZMod p)) (den_split x_s hik)
    beta_reduce at hsplit
    rw [Int.cast_mul] at hsplit
    rw [hsplit]
    have hinv_i := egcd_inv_cast hp (hcop i hik)
    linear_combination (((lagNum 0 x_s i : Int) : ZMod p)
      * ((lagRest x_s i : Int) : ZMod p)
      * ((evalZ c (x_s.getD i 0) : Int) : ZMod p)
      * (((_extended_gcd
          (PI ((List.range x_s.length).map (lagDen x_s))) p).1 : Int)
            : ZMod p)) * hinv_i
  rw [Finset.sum_congr rfl hstep, ← Finset.mul_sum, ← hid]
  calc (((_extended_gcd
        (PI ((List.range x_s.length).map (lagDen x_s))) p).1 : Int) : ZMod p)
      * (((PI ((List.range x_s.length).map (lagDen x_s)) : Int) : ZMod p)
          * ((evalZ c 0 : Int) : ZMod p))
      = ((((_extended_gcd
          (PI ((List.range x_s.length).map (lagDen x_s))) p).1 : Int)
            : ZMod p)
          * ((PI ((List.range x_s.length).map (lagDen x_s)) : Int) : ZMod p))
          * ((evalZ c 0 : Int) : ZMod p) := by ring
    _ = ((evalZ c 0 : Int) : ZMod p) := by rw [hinvDEN, one_mul]

/-! ### Case analysis on the allowed strengths and lengths -/

theorem strength_cases {s : Nat} (hs : s ∈ STRENGTH_ALLOWED) :
    s = 128 ∨ s = 160 ∨ s = 192 ∨ s = 224 ∨ s = 256 := by
  simpa [STRENGTH_ALLOWED] using hs

theorem length_cases {n : Nat} (hn : n ∈ LENGTH_ALLOWED) :
    n = 12 ∨ n = 15 ∨ n = 18 ∨ n = 21 ∨ n = 24 := by
  simpa [LENGTH_ALLOWED] using hn

theorem PRIMES_pos {s : Nat} (hs : s ∈ STRENGTH_ALLOWED) : 0 < PRIMES s := by
  rcases strength_cases hs with rfl | rfl | rfl | rfl | rfl <;> decide

theorem PRIMES_lt_pow {s : Nat} (hs : s ∈ STRENGTH_ALLOWED) :
    PRIMES s < 256 ^ (s / 8) := by
  rcases strength_cases hs with rfl | rfl | rfl | rfl | rfl <;> decide

theorem seed_strength_allowed {n : Nat} (hn : n ∈ LENGTH_ALLOWED) :
    n / 3 * 32 ∈ STRENGTH_ALLOWED := by
  rcases length_cases hn with rfl | rfl | rfl | rfl | rfl <;> decide

theorem share_words_strength {s : Nat} (hs : s ∈ STRENGTH_ALLOWED) :
    s / 8 * 3 / 4 / 3 * 32 = s := by
  rcases strength_cases hs with rfl | rfl | rfl | rfl | rfl <;> decide

theorem seed_words_roundtrip {n : Nat} (hn : n ∈ LENGTH_ALLOWED) :
    n / 3 * 32 / 8 * 3 / 4 = n := by
  rcases length_cases hn with rfl | rfl | rfl | rfl | rfl <;> decide

theorem pow_strength_eq {s : Nat} (hs : s ∈ STRENGTH_ALLOWED) :
    256 ^ (s / 8) = 2 ^ s := by
  rcases strength_cases hs with rfl | rfl | rfl | rfl | rfl <;> norm_num

/-! ### Coprimality of the Lagrange denominators with the field prime -/

theorem gcd_prime_of_small {p : Nat} (hp : Nat.Prime p) {d : Int}
    (hdz : d ≠ 0) (hdlt : d.natAbs < p) : Int.gcd d (p : Int) = 1 := by
  have h1 : ¬ (p ∣ d.natAbs) :=
    Nat.not_dvd_of_pos_of_lt (Int.natAbs_pos.mpr hdz) hdlt
  have h2 : Nat.Coprime p d.natAbs := (Nat.Prime.coprime_iff_not_dvd hp).mpr h1
  have h3 : Nat.gcd d.natAbs p = 1 := Nat.Coprime.gcd_eq_one h2.symm
  rw [Int.gcd_def, Int.natAbs_ofNat]
  exact h3

theorem gcd_small_PRIMES {s : Nat} (hs : s ∈ STRENGTH_ALLOWED) {d : Int}
    (hdz : d ≠ 0) (hd9 : d.natAbs ≤ 9) :
    Int.gcd d ((PRIMES s : Nat) : Int) = 1 := by
  have h1 : 1 ≤ d.natAbs := Int.natAbs_pos.mpr hdz
  rw [Int.gcd_def, Int.natAbs_ofNat]
  have h9 := hd9
  set m := d.natAbs with hm
  clear_value m
  rcases strength_cases hs with rfl | rfl | rfl | rfl | rfl <;>
    interval_cases m <;> decide

/-- C2.  Interpolation correctness: for every prime `p`, every polynomial of
degree `< k` with coefficients in `[0, p)` (given as its coefficient list
`c`, constant term first, `c.length ≤ k`), and every `k` points
`(x_i, y_i)` with pairwise-distinct nonzero field x-values lying on that
polynomial mod `p`, `_lagrange_interpolate 0 x_s y_s p` returns the
polynomial constant term; the witness instantiates it at secret `42`,
the 3-term polynomial `42 + 166 x + 94 x^2` over `p = 2089`, and the three
points `x = 1, 2, 3`. -/
theorem claim2_interpolation_correct (p : Nat) (hp : Nat.Prime p)
    (x_s y_s c : List Int)
    (hlen : y_s.length = x_s.length)
    (hnd : x_s.Nodup)
    (hxr : ∀ i, i < x_s.length →
      0 < x_s.getD i 0 ∧ x_s.getD i 0 < (p : Int))
    (hclen : c.length ≤ x_s.length)
    (hc : ∀ m, m < c.length → 0 ≤ c.getD m 0 ∧ c.getD m 0 < (p : Int))
    (hy : ∀ i, i < x_s.length →
      y_s.getD i 0 = _eval_at c (x_s.getD i 0) p) :
    _lagrange_interpolate 0 x_s y_s p = Except.ok (c.getD 0 0) := by
  have hp0 : 0 < p := hp.pos
  have hcop : ∀ i, i < x_s.length → Int.gcd (lagDen x_s i) p = 1 := by
    intro i hik
    rw [lagDen, PI_eq_prod]
    apply gcd_list_prod_eq_one
    intro a ha
    obtain ⟨o, ho, rfl⟩ := List.mem_map.mp ha
    have hox : o ∈ x_s := List.mem_of_mem_eraseIdx ho
    obtain ⟨j, hjk, hjo⟩ := List.mem_iff_getElem.mp hox
    have hogetD : x_s.getD j 0 = o := by rw [getD_eq_getElem _ 0 hjk, hjo]
    have hob := hxr j hjk
    rw [hogetD] at hob
    have hxi := hxr i hik
    have hne : x_s.getD i 0 ≠ o := fun hcon =>
      nodup_not_mem_eraseIdx hnd 0 hik (hcon ▸ ho)
    apply gcd_prime_of_small hp (sub_ne_zero.mpr hne)
    omega
  have h := lagrange_interpolate_ok p hp0 x_s y_s c hnd hclen hcop
    (fun i hik => by rw [hy i hik])
  rw [h]
  congr 1
  cases c with
  | nil => rfl
  | cons a t =>
    rw [_eval_at_cons_zero]
    have hb := hc 0 (by simp)
    rw [List.getD_cons_zero] at hb ⊢
    exact Int.emod_eq_of_lt hb.1 hb.2

/-- Witness for C2: the spec test vector (secret 42, polynomial
`42 + 166 x + 94 x^2` over `p = 2089`, points at `x = 1, 2, 3` computed by
`_eval_at`) interpolates back to exactly `42`. -/
theorem claim2_witness :
    _lagrange_interpolate 0 [1, 2, 3] [302, 750, 1386] 2089
      = Except.ok 42 :=
  claim2_interpolation_correct 2089 (by norm_num) [1, 2, 3]
    [302, 750, 1386] [42, 166, 94] (by decide) (by decide) (by decide)
    (by decide) (by decide) (by decide)

/-! ### Generation: closed form of `make_random_shares` -/

theorem mapM_ok {α β : Type} (f : α → Except Err β) (g : α → β) (l : List α)
    (h : ∀ a ∈ l, f a = Except.ok (g a)) : l.mapM f = Except.ok (l.map g) := by
  induction l with
  | nil => rfl
  | cons a t ih =>
    rw [List.mapM_cons, h a (List.mem_cons_self a t),
      ih (fun b hb => h b (List.mem_cons_of_mem a hb))]
    rfl

theorem make_random_shares_ok (seed : Phrase)
    (minimum n_shares share_strength : Nat) (rnd : Nat → Nat)
    (hlen : seed.nWords ∈ LENGTH_ALLOWED)
    (hmn : minimum ≤ n_shares)
    (hss : share_strength ∈ STRENGTH_ALLOWED)
    (hge : seed.nWords / 3 * 32 ≤ share_strength) :
    make_random_shares seed minimum n_shares share_strength rnd
      = Except.ok (sharesList seed minimum n_shares share_strength rnd) := by
  have h1 : ¬ (minimum > n_shares) := by omega
  have h2 : ¬ (seed.nWords ∉ LENGTH_ALLOWED) := not_not_intro hlen
  have h3 : ¬ (share_strength ∉ STRENGTH_ALLOWED) := not_not_intro hss
  have h4 : ¬ (share_strength < seed.nWords / 3 * 32) := by omega
  have h5 : (256 : Nat) ∈ STRENGTH_ALLOWED := by decide
  have hpp : 0 < PRIMES share_strength := PRIMES_pos hss
  have hplt : (PRIMES share_strength : Int)
      < (256 : Int) ^ (share_strength / 8) := by
    have := PRIMES_lt_pow hss
    exact_mod_cast this
  have hmapM := mapM_ok
    (fun ip : Int × Int => (int_to_seed ip.2 share_strength).map
      (fun ph => (ip.1, ph)))
    (fun ip : Int × Int =>
      (ip.1, Phrase.mk (share_strength / 8 * 3 / 4) ip.2.toNat))
    ((List.range' 1 n_shares).map (fun i : Nat =>
      ((i : Int), _eval_at ((seed.value : Int)
          :: (List.range (minimum - 1)).map (fun i => ((rnd i : Nat) : Int)))
        (i : Int) (PRIMES share_strength))))
    (by
      intro ip hip
      obtain ⟨i, hi, rfl⟩ := List.mem_map.mp hip
      show (int_to_seed (_eval_at _ (i : Int)
        (PRIMES share_strength)) share_strength).map _ = _
      rw [int_to_seed, if_pos hss,
        if_pos ⟨_eval_at_nonneg _ _ hpp,
          lt_trans (_eval_at_lt _ _ hpp) hplt⟩]
      rfl)
  simp only [make_random_shares, if_neg h1, if_neg h2, if_neg h3, if_neg h4,
    seed_to_int, if_pos h5, to_entropy]
  rw [hmapM, List.map_map]
  rfl

/-- C9.  On every valid configuration, each polynomial evaluation lies in
`[0, prime)`, the table prime is below `2 ^ share_strength`, and generation
returns shares without ever reaching the int-to-bytes overflow branch. -/
theorem claim9_no_overflow (seed : Phrase)
    (minimum n_shares share_strength : Nat) (rnd : Nat → Nat)
    (hlen : seed.nWords ∈ LENGTH_ALLOWED)
    (hmn : minimum ≤ n_shares)
    (hss : share_strength ∈ STRENGTH_ALLOWED)
    (hge : seed.nWords / 3 * 32 ≤ share_strength) :
    (∀ poly x, 0 ≤ _eval_at poly x (PRIMES share_strength)
      ∧ _eval_at poly x (PRIMES share_strength)
          < (PRIMES share_strength : Int))
    ∧ PRIMES share_strength < 2 ^ share_strength
    ∧ make_random_shares seed minimum n_shares share_strength rnd
        = Except.ok (sharesList seed minimum n_shares share_strength rnd) := by
  refine ⟨fun poly x => ⟨_eval_at_nonneg _ _ (PRIMES_pos hss),
    _eval_at_lt _ _ (PRIMES_pos hss)⟩, ?_,
    make_random_shares_ok seed minimum n_shares share_strength rnd
      hlen hmn hss hge⟩
  rw [← pow_strength_eq hss]
  exact PRIMES_lt_pow hss

/-- Witness for C9 at a concrete valid configuration. -/
theorem claim9_witness :
    (∀ poly x, 0 ≤ _eval_at poly x (PRIMES 128)
      ∧ _eval_at poly x (PRIMES 128) < (PRIMES 128 : Int))
    ∧ PRIMES 128 < 2 ^ 128
    ∧ make_random_shares ⟨12, 7⟩ 2 3 128 (fun _ => 5)
        = Except.ok (sharesList ⟨12, 7⟩ 2 3 128 (fun _ => 5)) :=
  claim9_no_overflow ⟨12, 7⟩ 2 3 128 (fun _ => 5) (by decide) (by decide)
    (by decide) (by decide)

/-- C7.  Generation configuration validation: `make_random_shares` fails
with a `ValueError` whenever `minimum > n_shares`, the seed word count is
not allowed, the share strength is not allowed, or the share strength is
below the seed strength. -/
theorem claim7_config_validation (seed : Phrase)
    (minimum n_shares share_strength : Nat) (rnd : Nat → Nat)
    (hbad : minimum > n_shares ∨ seed.nWords ∉ LENGTH_ALLOWED
      ∨ share_strength ∉ STRENGTH_ALLOWED
      ∨ share_strength < seed.nWords / 3 * 32) :
    ∃ e, make_random_shares seed minimum n_shares share_strength rnd
      = Except.error e := by
  by_cases h1 : minimum > n_shares
  · exact ⟨Err.configMinShares, by simp only [make_random_shares, if_pos h1]⟩
  · by_cases h2 : seed.nWords ∉ LENGTH_ALLOWED
    · exact ⟨Err.configSeedLength,
        by simp only [make_random_shares, if_neg h1, if_pos h2]⟩
    · by_cases h3 : share_strength ∉ STRENGTH_ALLOWED
      · exact ⟨Err.configShareStrengthValue,
          by simp only [make_random_shares, if_neg h1, if_neg h2, if_pos h3]⟩
      · have h4 : share_strength < seed.nWords / 3 * 32 := by tauto
        exact ⟨Err.configShareStrengthLow,
          by simp only [make_random_shares, if_neg h1, if_neg h2, if_neg h3,
            if_pos h4]⟩

/-- Witness for C7: `minimum = 5` with `n_shares = 3` fails. -/
theorem claim7_witness :
    ∃ e, make_random_shares ⟨12, 0⟩ 5 3 256 (fun _ => 0) = Except.error e :=
  claim7_config_validation ⟨12, 0⟩ 5 3 256 (fun _ => 0) (Or.inl (by decide))

/-- C10.  Decoding is strength-independent: `seed_to_int` only validates its
`strength` argument and never uses it in decoding, so any two allowed
strengths give the same integer for the same phrase, and every allowed
strength decodes a phrase to exactly its entropy integer (so recovery
decoding share phrases at `seed_strength` yields the same integers as
decoding them at the shares own strength). -/
theorem claim10_strength_independent :
    (∀ (ph : Phrase) (s1 s2 : Nat), s1 ∈ STRENGTH_ALLOWED →
      s2 ∈ STRENGTH_ALLOWED → seed_to_int ph s1 = seed_to_int ph s2)
    ∧ (∀ (ph : Phrase) (s : Nat), s ∈ STRENGTH_ALLOWED →
      seed_to_int ph s = Except.ok ((ph.value : Nat) : Int)) := by
  constructor
  · intro ph s1 s2 h1 h2
    rw [seed_to_int, seed_to_int, if_pos h1, if_pos h2]
  · intro ph s h
    rw [seed_to_int, if_pos h]
    rfl

/-- Witness for C10 at a concrete phrase and strengths 128 and 256. -/
theorem claim10_witness :
    seed_to_int ⟨12, 7⟩ 128 = seed_to_int ⟨12, 7⟩ 256 :=
  claim10_strength_independent.1 ⟨12, 7⟩ 128 256 (by decide) (by decide)

/-- C8.  Inconsistent share lengths: with at least two shares whose phrases
do not all have the same word count, `recover_seed` fails with the
inconsistent-length error (before any decoding or interpolation, which is
why the result does not depend on `seed_strength` or `prime?`). -/
theorem claim8_inconsistent_lengths (shares : List (Int × Phrase))
    (seed_strength : Nat) (prime? : Option Nat)
    (h2 : 2 ≤ shares.length)
    (hmix : ∃ a ∈ shares, ∃ b ∈ shares, a.2.nWords ≠ b.2.nWords) :
    recover_seed shares seed_strength prime?
      = Except.error Err.inconsistentShareLengths := by
  have hlt : ¬ (shares.length < 2) := by omega
  have hdedup : ¬ ((shares.map (fun s => s.2.nWords)).dedup.length = 1) := by
    obtain ⟨a, ha, b, hb, hab⟩ := hmix
    intro hc
    obtain ⟨x, hx⟩ := List.length_eq_one.mp hc
    have hma : a.2.nWords ∈ (shares.map (fun s => s.2.nWords)).dedup := by
      rw [List.mem_dedup]
      exact List.mem_map.mpr ⟨a, ha, rfl⟩
    have hmb : b.2.nWords ∈ (shares.map (fun s => s.2.nWords)).dedup := by
      rw [List.mem_dedup]
      exact List.mem_map.mpr ⟨b, hb, rfl⟩
    rw [hx, List.mem_singleton] at hma hmb
    exact hab (hma.trans hmb.symm)
  simp only [recover_seed, if_neg hlt, if_pos hdedup]

/-- Witness for C8: a 12-word and a 24-word share phrase mixed. -/
theorem claim8_witness :
    recover_seed [(1, ⟨12, 0⟩), (2, ⟨24, 0⟩)] 256 none
      = Except.error Err.inconsistentShareLengths :=
  claim8_inconsistent_lengths [(1, ⟨12, 0⟩), (2, ⟨24, 0⟩)] 256 none
    (by decide) (by decide)

/-- Counterexample to C6 as stated: `_lagrange_interpolate` does NOT fail on
fewer than two points; with a single point it returns that point value, and
with no points it returns `0`. -/
theorem claim6_counterexample :
    _lagrange_interpolate 0 [1] [5] 7 = Except.ok 5
    ∧ _lagrange_interpolate 0 ([] : List Int) ([] : List Int) 7
        = Except.ok 0 := by
  constructor <;> decide

/-- C6 as amended: `_lagrange_interpolate` fails (with its distinctness
assertion) exactly when two supplied x-values are equal; the
fewer-than-two-points check is not in the interpolator but in
`recover_seed`, which rejects any share list with fewer than two entries. -/
theorem claim6_precondition_amended :
    (∀ (x : Int) (x_s y_s : List Int) (p : Nat), ¬ x_s.Nodup →
      _lagrange_interpolate x x_s y_s p
        = Except.error Err.assertDistinctPoints)
    ∧ (∀ (shares : List (Int × Phrase)) (s : Nat) (pr : Option Nat),
      shares.length < 2 →
      recover_seed shares s pr = Except.error Err.needTwoShares) := by
  constructor
  · intro x x_s y_s p hnd
    have hc : ¬ (x_s.dedup.length = x_s.length) := fun h =>
      hnd (dedup_length_eq_iff.mp h)
    simp only [_lagrange_interpolate, if_neg hc]
  · intro shares st pr h
    simp only [recover_seed, if_pos h]

/-- Witness for the amended C6: duplicated x-values trigger the assertion,
and a single share is rejected by `recover_seed`. -/
theorem claim6_witness :
    _lagrange_interpolate 0 [1, 1] [2, 3] 7
      = Except.error Err.assertDistinctPoints
    ∧ recover_seed [(1, ⟨12, 7⟩)] 256 none
      = Except.error Err.needTwoShares :=
  ⟨claim6_precondition_amended.1 0 [1, 1] [2, 3] 7 (by decide),
   claim6_precondition_amended.2 [(1, ⟨12, 7⟩)] 256 none (by decide)⟩

/-- Counterexample to C5 as stated: `_divmod` does not reduce its result
modulo `p`; `_divmod 1 2 5` is `-2`, which is not in `[0, 5)` (and differs
from `1 * modInverse(2, 5) mod 5 = 3`). -/
theorem claim5_counterexample :
    _divmod 1 2 5 = -2
    ∧ ¬ (0 ≤ _divmod 1 2 5 ∧ _divmod 1 2 5 < 5) := by
  constructor <;> decide

/-- C5 as amended: `_divmod num den p` is `num` times the Bezout
coefficient of `den`, left unreduced (it can be negative or exceed `p`);
it satisfies the congruence promised by its docstring:
`den * _divmod(num, den, p) ≡ num (mod p)` whenever `gcd(den, p) = 1`.
Callers normalize into `[0, p)` afterwards. -/
theorem claim5_divmod_amended (p : Nat) (hp : 0 < p) (num den : Int)
    (hg : Int.gcd den p = 1) :
    (den * _divmod num den p) % (p : Int) = num % (p : Int) :=
  divmod_den_congr hp num den hg

/-- Witness for the amended C5. -/
theorem claim5_witness :
    (2 * _divmod 3 2 5) % ((5 : Nat) : Int) = 3 % ((5 : Nat) : Int) :=
  claim5_divmod_amended 5 (by decide) 3 2 (by decide)

/-- Counterexample to C4 as stated: `random_int(prime - 1)` is
`randint(0, prime - 1)`, whose support includes `prime - 1` itself, so a
drawn coefficient need not be strictly below `prime - 1`. -/
theorem claim4_counterexample :
    randint_support (PRIMES 128 - 1) (PRIMES 128 - 1)
    ∧ ¬ (PRIMES 128 - 1 < PRIMES 128 - 1) := by
  constructor <;> decide

/-- C4 as amended: every value `random_int(prime - 1)` can draw lies in
`[0, prime - 1]`, i.e. in the half-open interval `[0, prime)`, and hence
every random polynomial coefficient of `make_random_shares` is a field
element below the prime. -/
theorem claim4_range_amended (s : Nat) (hs : s ∈ STRENGTH_ALLOWED)
    (rnd : Nat → Nat)
    (hrnd : ∀ i, randint_support (PRIMES s - 1) (rnd i)) :
    (∀ v, randint_support (PRIMES s - 1) v → v < PRIMES s)
    ∧ ∀ (seed : Phrase) (minimum : Nat),
      ∀ a ∈ (sharePoly seed minimum rnd).tail,
        0 ≤ a ∧ a < ((PRIMES s : Nat) : Int) := by
  have hpos := PRIMES_pos hs
  have hlt : ∀ v, randint_support (PRIMES s - 1) v → v < PRIMES s := by
    intro v hv
    have : v ≤ PRIMES s - 1 := hv
    omega
  refine ⟨hlt, ?_⟩
  intro seed minimum a ha
  rw [sharePoly, List.tail_cons] at ha
  obtain ⟨i, _, rfl⟩ := List.mem_map.mp ha
  constructor
  · exact Int.natCast_nonneg _
  · exact_mod_cast hlt (rnd i) (hrnd i)

/-- Witness for the amended C4, with the random source returning the top
value `prime - 1` of the support. -/
theorem claim4_witness :
    (∀ v, randint_support (PRIMES 128 - 1) v → v < PRIMES 128)
    ∧ ∀ (seed : Phrase) (minimum : Nat),
      ∀ a ∈ (sharePoly seed minimum (fun _ => PRIMES 128 - 1)).tail,
        0 ≤ a ∧ a < ((PRIMES 128 : Nat) : Int) :=
  claim4_range_amended 128 (by decide) (fun _ => PRIMES 128 - 1)
    (fun _ =>
      (by decide : randint_support (PRIMES 128 - 1) (PRIMES 128 - 1)))

/-! ### The verifier subset-selection policy (C3) -/

theorem range'_prod_descFactorial (n : Nat) :
    ∀ r, r ≤ n → (List.range' (n - r + 1) r).prod = n.descFactorial r := by
  intro r
  induction r with
  | zero =>
    intro _
    simp
  | succ m ih =>
    intro hle
    have hh : n - (m + 1) + 1 = n - m := by omega
    rw [hh, List.range'_succ, List.prod_cons]
    rw [ih (by omega), Nat.descFactorial_succ]

theorem len_permutations_eq_descFactorial (n r : Nat) (hr : r ≤ n) :
    len_permutations n r = n.descFactorial r := by
  rw [len_permutations, if_neg (by omega : ¬ r > n)]
  rw [show ((List.range' (n - r + 1) r).foldl (fun a b => a * b) 1)
      = (List.range' (n - r + 1) r).prod from List.prod_eq_foldl.symm]
  exact range'_prod_descFactorial n r hr

/-- Counterexample to C3 as stated.  With 6 shares and `minimum = 3` there
are only `C(6,3) = 20` distinct subsets, at most 100, yet the verifier does
NOT take the exhaustive branch: its threshold tests the count of ordered
permutations (`120 > 100`), so the random branch is taken; moreover the
random generator deduplicates tuples, not subsets: `[1,2,3]` and `[3,2,1]`
are a possible output sequence although they are the same subset, so a
subset already tested is not rejected. -/
theorem claim3_counterexample :
    Nat.choose 6 3 ≤ 100
    ∧ verification_uses_random_sampling 6 3 = true
    ∧ permutations_generator_support [1, 2, 3, 4, 5, 6] 3 [[1,2,3], [3,2,1]]
    ∧ ([1, 2, 3] : List Nat) ≠ [3, 2, 1]
    ∧ ([1, 2, 3] : List Nat).toFinset = ([3, 2, 1] : List Nat).toFinset := by
  refine ⟨by decide, by decide, by decide, by decide, by decide⟩

/-- C3 as amended: the verifier threshold and deduplication are over ordered
permutations, not subsets: the branch count `len_permutations` equals
`r! * C(n, r)` (the number of ordered `r`-permutations), the random branch
is taken exactly when that count exceeds 100, and the generator only
guarantees the tested tuples pairwise distinct as tuples. -/
theorem claim3_policy_amended (n r : Nat) (hr : r ≤ n) :
    len_permutations n r = Nat.choose n r * r.factorial
    ∧ (verification_uses_random_sampling n r = true
        ↔ 100 < Nat.choose n r * r.factorial)
    ∧ ∀ (seq : List Nat) (outs : List (List Nat)),
        permutations_generator_support seq r outs → outs.Nodup := by
  have h1 : len_permutations n r = Nat.choose n r * r.factorial := by
    rw [len_permutations_eq_descFactorial n r hr,
      Nat.descFactorial_eq_factorial_mul_choose, Nat.mul_comm]
  refine ⟨h1, ?_, fun seq outs h => h.1⟩
  rw [verification_uses_random_sampling, decide_eq_true_iff, h1]

/-- Witness for the amended C3 at `n = 6`, `r = 3`. -/
theorem claim3_witness :
    len_permutations 6 3 = Nat.choose 6 3 * Nat.factorial 3
    ∧ (verification_uses_random_sampling 6 3 = true
        ↔ 100 < Nat.choose 6 3 * Nat.factorial 3)
    ∧ ∀ (seq : List Nat) (outs : List (List Nat)),
        permutations_generator_support seq 3 outs → outs.Nodup :=
  claim3_policy_amended 6 3 (by decide)

/-! ### Recovery of the seed from any large-enough share subset -/

theorem dedup_map_const {α β : Type} [DecidableEq β] (f : α → β) (c : β) :
    ∀ (l : List α), l ≠ [] → (∀ a ∈ l, f a = c) → (l.map f).dedup = [c] := by
  intro l
  induction l with
  | nil => intro h; exact absurd rfl h
  | cons a t ih =>
    intro _ hall
    rw [List.map_cons, hall a (List.mem_cons_self a t)]
    cases t with
    | nil => simp
    | cons b t2 =>
      have ht : ((b :: t2).map f).dedup = [c] :=
        ih (by simp) (fun x hx => hall x (List.mem_cons_of_mem a hx))
      rw [List.dedup_cons_of_mem
        (List.mem_map.mpr ⟨b, List.mem_cons_self b t2,
          hall b (List.mem_cons_of_mem a (List.mem_cons_self b t2))⟩)]
      exact ht

theorem recover_from_sharesList (seed : Phrase)
    (minimum n_shares share_strength : Nat) (rnd : Nat → Nat)
    (hlen : seed.nWords ∈ LENGTH_ALLOWED)
    (hwf : seed.value < 2 ^ (seed.nWords / 3 * 32))
    (hsec : seed.value < PRIMES share_strength)
    (hmin : 2 ≤ minimum) (hn : n_shares ≤ 10)
    (hss : share_strength ∈ STRENGTH_ALLOWED)
    (sub : List (Int × Phrase)) (prime? : Option Nat)
    (hsublen : sub.length = minimum)
    (hsub : ∀ e ∈ sub, e ∈ sharesList seed minimum n_shares share_strength rnd)
    (hnd : (sub.map Prod.fst).Nodup)
    (hpr : prime? = none ∨ prime? = some (PRIMES share_strength)) :
    recover_seed sub (seed.nWords / 3 * 32) prime? = Except.ok seed := by
  have hsa : seed.nWords / 3 * 32 ∈ STRENGTH_ALLOWED :=
    seed_strength_allowed hlen
  have hppos : 0 < PRIMES share_strength := PRIMES_pos hss
  have helem : ∀ e ∈ sub, ∃ m : Nat, 1 ≤ m ∧ m ≤ n_shares ∧
      e = ((m : Int), Phrase.mk (share_strength / 8 * 3 / 4)
        (_eval_at (sharePoly seed minimum rnd) (m : Int)
          (PRIMES share_strength)).toNat) := by
    intro e he
    obtain ⟨m, hm, rfl⟩ := List.mem_map.mp (hsub e he)
    rw [List.mem_range'_1] at hm
    exact ⟨m, hm.1, by omega, rfl⟩
  have hlen2 : ¬ (sub.length < 2) := by omega
  have hwords : ∀ e ∈ sub, e.2.nWords = share_strength / 8 * 3 / 4 := by
    intro e he
    obtain ⟨m, _, _, rfl⟩ := helem e he
    rfl
  have hne : sub ≠ [] := by
    intro hc
    rw [hc] at hsublen
    simp at hsublen
    omega
  have hconst : (sub.map (fun s : Int × Phrase => s.2.nWords)).dedup
      = [share_strength / 8 * 3 / 4] :=
    dedup_map_const _ _ sub hne hwords
  have hdedup1 : ¬ ¬ ((sub.map
      (fun s : Int × Phrase => s.2.nWords)).dedup.length = 1) := by
    rw [hconst]
    simp
  have hstrength_ok : ¬ (seed.nWords / 3 * 32 ∉ STRENGTH_ALLOWED) :=
    not_not_intro hsa
  have hhead : (sub.headD (0, ⟨0, 0⟩)).2.nWords
      = share_strength / 8 * 3 / 4 := by
    cases sub with
    | nil => exact absurd rfl hne
    | cons e t => exact hwords e (List.mem_cons_self e t)
  have hdec := mapM_ok
    (fun s : Int × Phrase =>
      (seed_to_int s.2 (seed.nWords / 3 * 32)).map (fun v => (s.1, v)))
    (fun s : Int × Phrase => (s.1, ((s.2.value : Nat) : Int))) sub
    (fun a _ => by
      show (seed_to_int a.2 (seed.nWords / 3 * 32)).map
          (fun v => (a.1, v)) = _
      rw [seed_to_int, if_pos hsa]
      rfl)
  have hxs : List.map Prod.fst (sub.map
      (fun s : Int × Phrase => (s.1, ((s.2.value : Nat) : Int))))
      = sub.map Prod.fst := by
    rw [List.map_map]
    rfl
  have hys : List.map Prod.snd (sub.map
      (fun s : Int × Phrase => (s.1, ((s.2.value : Nat) : Int))))
      = sub.map (fun s : Int × Phrase => ((s.2.value : Nat) : Int)) := by
    rw [List.map_map]
    rfl
  have hxmem : ∀ z ∈ sub.map Prod.fst, ∃ m : Nat,
      1 ≤ m ∧ m ≤ n_shares ∧ z = (m : Int) := by
    intro z hz
    obtain ⟨e, he, rfl⟩ := List.mem_map.mp hz
    obtain ⟨m, h1, h2, rfl⟩ := helem e he
    exact ⟨m, h1, h2, rfl⟩
  have hint : _lagrange_interpolate 0 (sub.map Prod.fst)
      (sub.map (fun s : Int × Phrase => ((s.2.value : Nat) : Int)))
      (PRIMES share_strength)
      = Except.ok (_eval_at (sharePoly seed minimum rnd) 0
          (PRIMES share_strength)) := by
    apply lagrange_interpolate_ok (PRIMES share_strength) hppos _ _
      (sharePoly seed minimum rnd) hnd
    · rw [sharePoly]
      simp only [List.length_cons, List.length_map, List.length_range]
      rw [hsublen]
      omega
    · intro i hik
      rw [lagDen, PI_eq_prod]
      apply gcd_list_prod_eq_one
      intro a ha
      obtain ⟨o, ho, rfl⟩ := List.mem_map.mp ha
      obtain ⟨m1, hm11, hm12, hz1⟩ := hxmem _ (getD_mem _ 0 hik)
      obtain ⟨m2, hm21, hm22, hz2⟩ :=
        hxmem o (List.mem_of_mem_eraseIdx ho)
      have hneq : (sub.map Prod.fst).getD i 0 ≠ o := fun hcon =>
        nodup_not_mem_eraseIdx hnd 0 hik (hcon ▸ ho)
      apply gcd_small_PRIMES hss (sub_ne_zero.mpr hneq)
      rw [hz1, hz2]
      rw [hz1, hz2] at hneq
      omega
    · intro i hik
      have hisub : i < sub.length := by simpa using hik
      have hei : sub.getD i (0, ⟨0, 0⟩) ∈ sub := getD_mem _ _ hisub
      obtain ⟨m, hm1, hm2, hem⟩ := helem _ hei
      have hx : (sub.map Prod.fst).getD i 0
          = (sub.getD i (0, ⟨0, 0⟩)).1 := by
        rw [getD_eq_getElem _ _ hik, getD_eq_getElem _ _ hisub,
          List.getElem_map]
      have hy2 : (sub.map
          (fun s : Int × Phrase => ((s.2.value : Nat) : Int))).getD i 0
          = (((sub.getD i (0, ⟨0, 0⟩)).2.value : Nat) : Int) := by
        rw [getD_eq_getElem _ _ (by simpa using hisub),
          getD_eq_getElem _ _ hisub, List.getElem_map]
      rw [hx, hy2, hem]
      rw [Int.toNat_of_nonneg (_eval_at_nonneg _ _ hppos)]
  have hseed_eval : _eval_at (sharePoly seed minimum rnd) 0
      (PRIMES share_strength) = ((seed.value : Nat) : Int) := by
    rw [sharePoly, _eval_at_cons_zero]
    apply Int.emod_eq_of_lt (Int.natCast_nonneg _)
    exact_mod_cast hsec
  have hbound : (0 : Int) ≤ ((seed.value : Nat) : Int)
      ∧ ((seed.value : Nat) : Int)
        < (256 : Int) ^ (seed.nWords / 3 * 32 / 8) := by
    constructor
    · exact Int.natCast_nonneg _
    · have h2 : seed.value < 256 ^ (seed.nWords / 3 * 32 / 8) := by
        rw [pow_strength_eq hsa]
        exact hwf
      exact_mod_cast h2
  have hfinal : int_to_seed ((seed.value : Nat) : Int)
      (seed.nWords / 3 * 32) = Except.ok seed := by
    rw [int_to_seed, if_pos hsa, if_pos hbound]
    congr 1
    rw [to_mnemonic]
    cases seed with
    | mk nw v =>
      have hcast : (((v : Nat) : Int)).toNat = v := by simp
      rw [hcast]
      have hwords2 : nw / 3 * 32 / 8 * 3 / 4 = nw := seed_words_roundtrip hlen
      rw [hwords2]
  have hp0 : ¬ (PRIMES share_strength = 0) := by omega
  have hw3 : share_strength / 8 * 3 / 4 / 3 * 32 = share_strength :=
    share_words_strength hss
  rcases hpr with rfl | rfl
  · simp only [recover_seed, if_neg hlen2, if_neg hdedup1,
      if_neg hstrength_ok, hdec, hxs, hys, hhead, hw3, hint, hseed_eval,
      hfinal]
  · simp only [recover_seed, if_neg hlen2, if_neg hdedup1,
      if_neg hstrength_ok, hdec, hxs, hys, hhead, hw3, if_neg hp0, hint,
      hseed_eval, hfinal]

/-- Counterexample to C1 as stated.  A valid 12-word seed phrase whose
entropy integer is `2^128 - 1` (a legal 16-byte entropy, below `2^128`) is
at least the field prime `2^128 - 159`, so the generation reduces the
secret modulo the prime and every minimum-sized subset recovers the phrase
with entropy `158`, not the original.  Also, `minimum = 1` satisfies
`minimum ≤ n_shares ≤ 10`, yet its 1-element subsets are rejected by
`recover_seed`, which requires at least two shares. -/
theorem claim1_counterexample :
    make_random_shares ⟨12, 2 ^ 128 - 1⟩ 2 2 128 (fun _ => 0)
      = Except.ok [(1, ⟨12, 158⟩), (2, ⟨12, 158⟩)]
    ∧ recover_seed [(1, ⟨12, 158⟩), (2, ⟨12, 158⟩)] 128 none
      = Except.ok ⟨12, 158⟩
    ∧ (⟨12, 158⟩ : Phrase) ≠ ⟨12, 2 ^ 128 - 1⟩
    ∧ (2 ^ 128 - 1 : Nat) < 2 ^ 128
    ∧ make_random_shares ⟨12, 7⟩ 1 3 128 (fun _ => 0)
      = Except.ok [(1, ⟨12, 7⟩), (2, ⟨12, 7⟩), (3, ⟨12, 7⟩)]
    ∧ recover_seed [(1, ⟨12, 7⟩)] 128 none
      = Except.error Err.needTwoShares := by
  refine ⟨by decide, by decide, by decide, by decide, by decide, by decide⟩

/-- C1 as amended.  Round trip: for every configuration with
`2 ≤ minimum ≤ n_shares ≤ 10`, allowed seed word count and share strength
at least the seed strength, and a seed phrase whose entropy integer is
below the share prime, `make_random_shares` succeeds and `recover_seed` on
every `minimum`-sized subset of the returned shares (distinct shares, in
any order, with the matching `seed_strength` and the prime defaulted or
supplied) returns the original seed phrase exactly. -/
theorem claim1_roundtrip_amended (seed : Phrase)
    (minimum n_shares share_strength : Nat) (rnd : Nat → Nat)
    (hlen : seed.nWords ∈ LENGTH_ALLOWED)
    (hwf : seed.value < 2 ^ (seed.nWords / 3 * 32))
    (hsec : seed.value < PRIMES share_strength)
    (hmin : 2 ≤ minimum) (hmn : minimum ≤ n_shares) (hn : n_shares ≤ 10)
    (hss : share_strength ∈ STRENGTH_ALLOWED)
    (hge : seed.nWords / 3 * 32 ≤ share_strength)
    (hrnd : ∀ i, randint_support (PRIMES share_strength - 1) (rnd i)) :
    make_random_shares seed minimum n_shares share_strength rnd
      = Except.ok (sharesList seed minimum n_shares share_strength rnd)
    ∧ ∀ (sub : List (Int × Phrase)) (prime? : Option Nat),
        sub.length = minimum →
        (∀ e ∈ sub,
          e ∈ sharesList seed minimum n_shares share_strength rnd) →
        (sub.map Prod.fst).Nodup →
        (prime? = none ∨ prime? = some (PRIMES share_strength)) →
        recover_seed sub (seed.nWords / 3 * 32) prime? = Except.ok seed :=
  ⟨make_random_shares_ok seed minimum n_shares share_strength rnd
      hlen hmn hss hge,
   fun sub prime? h1 h2 h3 h4 =>
     recover_from_sharesList seed minimum n_shares share_strength rnd
       hlen hwf hsec hmin hn hss sub prime? h1 h2 h3 h4⟩

/-- Witness for the amended C1 at a concrete configuration
(12-word seed with entropy 7, threshold 2 of 3, share strength 128). -/
theorem claim1_witness :
    make_random_shares ⟨12, 7⟩ 2 3 128 (fun _ => 5)
      = Except.ok (sharesList ⟨12, 7⟩ 2 3 128 (fun _ => 5))
    ∧ ∀ (sub : List (Int × Phrase)) (prime? : Option Nat),
        sub.length = 2 →
        (∀ e ∈ sub, e ∈ sharesList ⟨12, 7⟩ 2 3 128 (fun _ => 5)) →
        (sub.map Prod.fst).Nodup →
        (prime? = none ∨ prime? = some (PRIMES 128)) →
        recover_seed sub ((⟨12, 7⟩ : Phrase).nWords / 3 * 32) prime?
          = Except.ok ⟨12, 7⟩ :=
  claim1_roundtrip_amended ⟨12, 7⟩ 2 3 128 (fun _ => 5) (by decide)
    (by decide) (by decide) (by decide) (by decide) (by decide) (by decide)
    (by decide)
    (fun _ => (by decide : randint_support (PRIMES 128 - 1) 5))
